import Mathlib

/-!
Verification development for the REFLECTIVE-JOURNAL repository (src/RJ.py).

The program is a linear Streamlit pipeline: collect form inputs, select a
Gemini model, generate five text sections, post-process them, substitute
placeholders in a docx template, and optionally convert the result to PDF.

Strings are modelled as Lean `String`/`List Char`; the whitespace class is
the ASCII range matched by Python's regex `\s` and `str.split`/`str.strip`.
External effects (environment variable, model responses, template file,
converter outcome) are modelled as explicit inputs in an `Env` record, and
the number of model API requests actually issued is tracked as a natural
number so that "before any model call" claims are statable.
-/

namespace RJ

/-- ASCII whitespace as matched by Python's regex class `\s` and by
`str.split()` / `str.strip()`: space, tab, newline, carriage return,
vertical tab, form feed. -/
def isPySpace (c : Char) : Bool :=
  c = ' ' || c = '\t' || c = '\n' || c = '\r' || c = '\x0b' || c = '\x0c'

/-- Embeds `re.sub(r"\s+", " ", txt)` from `enforce_count` (RJ.py line 67):
every maximal run of whitespace characters is replaced by a single space.
Structural formulation: a whitespace character followed by further
whitespace contributes nothing (the run is still open); the last character
of a run, or a lone trailing whitespace character, becomes the single
space emitted for that run. -/
def collapseWS : List Char → List Char
  | [] => []
  | [c] => if isPySpace c then [' '] else [c]
  | a :: b :: rest =>
    if isPySpace a then
      if isPySpace b then collapseWS (b :: rest)
      else ' ' :: collapseWS (b :: rest)
    else a :: collapseWS (b :: rest)

/-- Embeds Python `str.split()` with no arguments (RJ.py line 68): the list
of maximal nonempty runs of non-whitespace characters; leading, trailing
and repeated whitespace produce no empty items. -/
def pySplit : List Char → List (List Char)
  | [] => []
  | [c] => if isPySpace c then [] else [[c]]
  | a :: b :: rest =>
    if isPySpace a then pySplit (b :: rest)
    else if isPySpace b then [a] :: pySplit (b :: rest)
    else
      match pySplit (b :: rest) with
      | [] => [[a]]
      | w :: ws => (a :: w) :: ws

/-- Embeds Python `" ".join(words)` (RJ.py line 71): concatenate the items
with a single space between consecutive items. -/
def joinWords : List (List Char) → List Char
  | [] => []
  | [w] => w
  | w :: w2 :: ws => w ++ ' ' :: joinWords (w2 :: ws)

/-- Embeds `enforce_count` (RJ.py lines 66-71): collapse whitespace runs to
single spaces, split into words, return the collapsed text when the word
count is at most `count`, otherwise join the first `count` words and append
a literal ellipsis. -/
def enforce_count (txt : String) (count : Nat) : String :=
  let collapsed := collapseWS txt.toList
  let words := pySplit collapsed
  if words.length ≤ count then String.mk collapsed
  else String.mk (joinWords (words.take count)) ++ "..."

theorem length_dropWhile_le (p : Char → Bool) (l : List Char) :
    (l.dropWhile p).length ≤ l.length := by
  induction l with
  | nil => simp
  | cons c rest ih =>
    simp only [List.dropWhile]
    split
    · exact Nat.le_succ_of_le ih
    · simp

/-- Formalization of the spec's wording of the whitespace-collapsing step
("replace every run of whitespace with a single space", spec section 4.3),
written run-at-a-time: on meeting a whitespace character, emit one space
and continue after the whole maximal whitespace run. Used only to state
and prove the refinement claim about `enforce_count`. -/
def collapseRuns : List Char → List Char
  | [] => []
  | c :: rest =>
    if isPySpace c then ' ' :: collapseRuns (rest.dropWhile isPySpace)
    else c :: collapseRuns rest
termination_by l => l.length
decreasing_by
  · simp only [List.length_cons]
    exact Nat.lt_succ_of_le (length_dropWhile_le isPySpace rest)
  · simp

/-- Formalization of the spec's contract for the text normalizer
(spec section 4.3): collapse whitespace runs, return the collapsed text
unchanged when its word count is at most the target, otherwise keep
exactly the first `n` words joined by single spaces and append a literal
ellipsis. -/
def enforce_count_spec (txt : String) (n : Nat) : String :=
  let c := collapseRuns txt.toList
  if (pySplit c).length ≤ n then String.mk c
  else String.mk (List.intercalate [' '] ((pySplit c).take n)) ++ "..."

/-- Embeds Python `str.strip()` (no arguments): remove leading and
trailing whitespace. Used by `call_gemini` (`res.text.strip()`, RJ.py
line 63), by the line filter `if l.strip()` and the per-line `.strip()`
in `generate_apps` (RJ.py line 108). -/
def pyStrip (l : List Char) : List Char :=
  ((l.dropWhile isPySpace).reverse.dropWhile isPySpace).reverse

/-- Embeds Python `raw.split("\n")` (RJ.py line 108): split at every
newline character, keeping empty pieces; the empty string yields one
empty piece. -/
def splitOnNl : List Char → List (List Char)
  | [] => [[]]
  | c :: rest =>
    if c = '\n' then [] :: splitOnNl rest
    else
      match splitOnNl rest with
      | [] => [[c]]
      | w :: ws => (c :: w) :: ws

/-- The character class of the regex `^[0-9\.\-\*\•\s]+` used in
`generate_apps` (RJ.py line 108): digits, dot, dash, asterisk, bullet and
whitespace. -/
def isEnumChar (c : Char) : Bool :=
  c.isDigit || c = '.' || c = '-' || c = '*' || c = '•' || isPySpace c

/-- The per-line post-processing of `generate_apps` (RJ.py line 108):
split the raw response on newlines, keep the lines whose `strip()` is
nonempty (Python truthiness of `l.strip()`), and for each kept line strip
the longest leading run of enumeration characters (the greedy regex
substitution) and then strip surrounding whitespace. -/
def appLines (raw : String) : List (List Char) :=
  ((splitOnNl raw.toList).filter (fun l => !(pyStrip l).isEmpty)).map
    (fun l => pyStrip (l.dropWhile isEnumChar))

/-- The filler sentence appended by `generate_apps` while fewer than `n`
lines are available (RJ.py line 111), a Python f-string interpolating the
topic. -/
def fillerLine (topic : String) : List Char :=
  "A simple example of ".toList ++ topic.toList ++ ['.']

/-- Embeds the `while len(lines) < n: lines.append(...)` padding loop of
`generate_apps` (RJ.py lines 110-111). -/
def padTo (n : Nat) (filler : List Char) (ls : List (List Char)) : List (List Char) :=
  ls ++ List.replicate (n - ls.length) filler

/-- One decimal digit character, for the f-string rendering of a natural
number. -/
def decDigit (d : Nat) : Char :=
  if d = 0 then '0' else if d = 1 then '1' else if d = 2 then '2'
  else if d = 3 then '3' else if d = 4 then '4' else if d = 5 then '5'
  else if d = 6 then '6' else if d = 7 then '7' else if d = 8 then '8' else '9'

/-- Fueled accumulator loop producing the decimal digits of `n`;
`fuel = n + 1` always suffices. -/
def natDecCore : Nat → Nat → List Char → List Char
  | 0, _, acc => acc
  | fuel + 1, n, acc =>
    if n < 10 then decDigit n :: acc
    else natDecCore fuel (n / 10) (decDigit (n % 10) :: acc)

/-- Decimal rendering of a natural number, as produced by the Python
f-string interpolation of an `int`. -/
def natDec (n : Nat) : List Char := natDecCore (n + 1) n []

/-- Embeds the numbering loop of `generate_apps` (RJ.py lines 115-117):
each retained line becomes the decimal index followed by a dot, a space
and the line text, indices counting up from the given start. -/
def numberFrom (i : Nat) : List (List Char) → List (List Char)
  | [] => []
  | l :: ls => (natDec i ++ '.' :: ' ' :: l) :: numberFrom (i + 1) ls

/-- Embeds Python `"\n".join(lines)` (RJ.py line 119). -/
def joinLines : List (List Char) → List Char
  | [] => []
  | [l] => l
  | l :: l2 :: ls => l ++ '\n' :: joinLines (l2 :: ls)

/-- Embeds the post-processing of `generate_apps` (RJ.py lines 108-119)
as a function of the raw model response: clean the usable lines, pad with
the filler sentence up to `n`, truncate to `n`, number from 1 and join
with newlines. -/
def generate_apps (raw topic : String) (n : Nat) : String :=
  String.mk (joinLines (numberFrom 1 ((padTo n (fillerLine topic) (appLines raw)).take n)))

/-- Embeds `call_gemini` (RJ.py lines 60-63) as a function of the raw
response text: the model reply is returned stripped of surrounding
whitespace (`res.text.strip()`); the transport itself is modelled by the
environment supplying `resp`. -/
def call_gemini (resp : String) : String := String.mk (pyStrip resp.toList)

/-- Embeds `generate_section` (RJ.py lines 77-93) as a function of the raw
model response: the stripped response truncated to the word budget. -/
def generate_section (raw : String) (nwords : Nat) : String :=
  enforce_count (call_gemini raw) nwords

/-- The ordered candidate model list `PREFERRED_MODELS` (RJ.py lines 18-23). -/
def PREFERRED_MODELS : List String :=
  ["gemini-2.0-flash", "gemini-2.0-pro", "gemini-1.5-flash", "gemini-1.5-pro"]

/-- The fatal abort conditions of the pipeline, each corresponding to an
`st.error` followed by `st.stop()` in RJ.py (or an uncaught exception for
the converter). -/
inductive Abort where
  | emptyTopic
  | noApiKey
  | noModel
  | templateMissing
  | convFailed
deriving DecidableEq

/-- Embeds the probe loop of `init_genai` (RJ.py lines 45-51): try the
candidates in order, return the first whose test request succeeds, error
when all fail. `probe m` is the environment's verdict on whether
`genai.GenerativeModel(m).generate_content("ping")` raises. -/
def firstWorking : List String → (String → Bool) → Except Abort String
  | [], _ => .error .noModel
  | m :: ms, probe => if probe m then .ok m else firstWorking ms probe

/-- Embeds `init_genai` (RJ.py lines 37-54). `key` is
`os.environ.get("GOOGLE_API_KEY")`: `none` when the variable is unset.
The Python guard `if not key` also fires on a present-but-empty value, so
an empty string aborts exactly like an absent one. -/
def init_genai (key : Option String) (probe : String → Bool) : Except Abort String :=
  match key with
  | none => .error .noApiKey
  | some k => if k = "" then .error .noApiKey else firstWorking PREFERRED_MODELS probe

/-- The number of test requests the probe loop actually issues: one per
candidate up to and including the first success, or one per candidate when
all fail. -/
def probeCalls : List String → (String → Bool) → Nat
  | [], _ => 0
  | m :: ms, probe => if probe m then 1 else 1 + probeCalls ms probe

/-- The number of model test requests one `init_genai` run issues: zero
when the credential guard fires, since `st.stop()` precedes the probe
loop (RJ.py lines 38-41), otherwise the probe loop's count. -/
def initCalls (key : Option String) (probe : String → Bool) : Nat :=
  match key with
  | none => 0
  | some k => if k = "" then 0 else probeCalls PREFERRED_MODELS probe

/-- A docx document, reduced to its text content: the body paragraphs and
the table cells (tables are lists of rows of cell texts). Formatting
(`apply_font_styles`) sets constant fonts, sizes, alignment and spacing
and does not depend on any input, so it is not represented. -/
structure Doc where
  paragraphs : List String
  tables : List (List (List String))
deriving DecidableEq

/-- Embeds Python `s.replace(pat, rep)`: replace every non-overlapping
occurrence of `pat`, scanning left to right. A (never exercised) empty
pattern is treated as no occurrence. -/
def replaceAll (pat rep : List Char) : List Char → List Char
  | [] => []
  | c :: rest =>
    if h : pat.isPrefixOf (c :: rest) ∧ pat ≠ [] then
      rep ++ replaceAll pat rep ((c :: rest).drop pat.length)
    else c :: replaceAll pat rep rest
termination_by l => l.length
decreasing_by
  · rcases pat with _ | ⟨p, ps⟩
    · exact absurd rfl h.2
    · simp only [List.length_cons, List.length_drop]
      omega
  · simp

/-- Embeds the Python substring test `key in text`. -/
def containsSub (pat : List Char) : List Char → Bool
  | [] => pat.isEmpty
  | c :: rest => pat.isPrefixOf (c :: rest) || containsSub pat rest

/-- Embeds the inner replacement loop of `fill_template` (RJ.py lines
159-169): fold over the placeholder pairs in mapping order; when the key
occurs as a substring of the text, replace all its occurrences. -/
def applyMap (data : List (String × String)) (p : String) : String :=
  data.foldl
    (fun acc kv =>
      if containsSub kv.1.toList acc.toList then
        String.mk (replaceAll kv.1.toList kv.2.toList acc.toList)
      else acc)
    p

/-- The substitution pass of `fill_template` (RJ.py lines 156-171) on the
loaded template: the placeholder map is applied to every body paragraph
and every table cell. -/
def fillDoc (template : Doc) (data : List (String × String)) : Doc :=
  { paragraphs := template.paragraphs.map (applyMap data)
    tables := template.tables.map (fun t => t.map (fun row => row.map (applyMap data))) }

/-- The in-memory buffer produced by `doc.save(out)` (RJ.py lines
173-176), reduced to its content-determined part. The real docx container
is a zip archive whose member headers are stamped with the wall-clock
time at save, so the actual byte stream depends on the clock as well as
on the document; that time dependence is outside this embedding, and no
theorem below depends on these buffer values (the pipeline claims inspect
only the abort outcome and the call count). -/
def serializeDoc (d : Doc) : List Nat :=
  (d.paragraphs.map (fun s => s.toList.map Char.toNat)).flatten ++
    [0] ++
    (d.tables.map (fun t =>
      (t.map (fun row => (row.map (fun s => s.toList.map Char.toNat)).flatten ++ [1])).flatten)).flatten

/-- Embeds `fill_template` (RJ.py lines 151-176) as a function of the
template file (absent, or present with the given content) and the
placeholder map: abort when the file is missing, otherwise substitute and
serialize. -/
def fill_template (templateFile : Option Doc) (data : List (String × String)) :
    Except Abort (List Nat) :=
  match templateFile with
  | none => .error .templateMissing
  | some template => .ok (serializeDoc (fillDoc template data))

/-- The form inputs collected by the Streamlit text fields (RJ.py lines
209-217). -/
structure Form where
  assignment_name : String
  student_name : String
  rollno : String
  class_section : String
  level : String
  year_term : String
  journal_title : String
  topic : String
  subject_name : String

/-- The external world as seen by one run of the Generate handler:
the credential variable, the per-candidate probe outcome, the raw text of
each of the five generation requests (indexed 0-4 in issue order), and
the template file. -/
structure Env where
  apiKey : Option String
  probeOk : String → Bool
  respond : Nat → String
  templateFile : Option Doc

/-- The placeholder map built by the handler (RJ.py lines 234-248), in
its Python insertion order. -/
def finalMap (form : Form) (exp feel ins apps conc : String) : List (String × String) :=
  [("\x7b\x7bassignment_name\x7d\x7d", form.assignment_name),
   ("\x7b\x7bstudent_name\x7d\x7d", form.student_name),
   ("\x7b\x7brollno\x7d\x7d", form.rollno),
   ("\x7b\x7bclass_section\x7d\x7d", form.class_section),
   ("\x7b\x7blevel\x7d\x7d", form.level),
   ("\x7b\x7byear_term\x7d\x7d", form.year_term),
   ("\x7b\x7bsubject_name\x7d\x7d", form.subject_name),
   ("\x7b\x7btitle\x7d\x7d", form.journal_title),
   ("\x7b\x7bexperiences\x7d\x7d", exp),
   ("\x7b\x7bfeelings\x7d\x7d", feel),
   ("\x7b\x7binsights\x7d\x7d", ins),
   ("\x7b\x7bapplications\x7d\x7d", apps),
   ("\x7b\x7bconclusion\x7d\x7d", conc)]

/-- Embeds the Generate button handler (RJ.py lines 220-252) up to the
docx download: the first component is the outcome (the docx byte buffer,
or the abort that stopped the run), the second counts the model API
requests actually issued before returning (zero before the topic check
and the credential guard; else the probe requests, plus the five
generation requests once a model is selected). The Python code checks
the topic, selects a model,
issues the five generation calls, and only then calls `fill_template`,
which is where a missing template file aborts the run. -/
def pipeline (env : Env) (form : Form) : Except Abort (List Nat) × Nat :=
  if form.topic = "" then (.error .emptyTopic, 0)
  else
    match init_genai env.apiKey env.probeOk with
    | .error e => (.error e, initCalls env.apiKey env.probeOk)
    | .ok _model =>
      let probes := probeCalls PREFERRED_MODELS env.probeOk
      let exp := generate_section (env.respond 0) 150
      let feel := generate_section (env.respond 1) 150
      let ins := generate_section (env.respond 2) 300
      let conc := generate_section (env.respond 3) 100
      let apps := generate_apps (call_gemini (env.respond 4)) form.topic 5
      (fill_template env.templateFile (finalMap form exp feel ins apps conc), probes + 5)

/-- A simulated filesystem for the converter: a list of entries
`(directory id, file name)`; the temporary directory itself is the entry
with the empty file name. -/
def freshDir (fs : List (Nat × String)) : Nat := (fs.map Prod.fst).foldr max 0 + 1

/-- Embeds `convert_to_pdf` (RJ.py lines 186-200). The
`tempfile.TemporaryDirectory` context manager creates a fresh directory
on entry and removes it with its whole contents when the block exits,
whether the body returned normally or raised; `conv` is the outcome of
the external `docx2pdf.convert` call (`none` models a raised error). -/
def convert_to_pdf (conv : List Nat → Option (List Nat)) (docxBytes : List Nat)
    (fs : List (Nat × String)) : Except Abort (List Nat) × List (Nat × String) :=
  let d := freshDir fs
  let fsEntered := (d, "") :: fs
  let fsWithDocx := (d, "temp.docx") :: fsEntered
  match conv docxBytes with
  | some pdfBytes => (.ok pdfBytes, ((d, "temp.pdf") :: fsWithDocx).filter (fun e => e.1 ≠ d))
  | none => (.error .convFailed, fsWithDocx.filter (fun e => e.1 ≠ d))

/-! ### Properties of the whitespace collapser and the word splitter -/

/-- Negation of the whitespace class: the characters that belong to words. -/
def isText (c : Char) : Bool := !isPySpace c

theorem collapseWS_cons_space {c : Char} (l : List Char) (h : isPySpace c = true) :
    collapseWS (c :: l) = ' ' :: collapseWS (l.dropWhile isPySpace) := by
  induction l generalizing c with
  | nil => simp [collapseWS, h]
  | cons b rest ih =>
    by_cases hb : isPySpace b = true
    · have h1 : collapseWS (c :: b :: rest) = collapseWS (b :: rest) := by
        simp [collapseWS, h, hb]
      rw [h1, ih hb, List.dropWhile_cons_of_pos hb]
    · have h1 : collapseWS (c :: b :: rest) = ' ' :: collapseWS (b :: rest) := by
        simp [collapseWS, h, hb]
      rw [h1, List.dropWhile_cons_of_neg hb]

theorem collapseWS_cons_text {c : Char} (l : List Char) (h : isPySpace c = false) :
    collapseWS (c :: l) = c :: collapseWS l := by
  cases l with
  | nil => simp [collapseWS, h]
  | cons b rest => simp [collapseWS, h]

/-- The source's whitespace collapsing agrees with the spec's run-at-a-time
description. -/
theorem collapseWS_eq_runs (l : List Char) : collapseWS l = collapseRuns l := by
  have H : ∀ (n : Nat) (l : List Char), l.length ≤ n → collapseWS l = collapseRuns l := by
    intro n
    induction n with
    | zero =>
      intro l hl
      rw [List.eq_nil_of_length_eq_zero (Nat.le_zero.mp hl)]
      simp [collapseWS, collapseRuns]
    | succ n ih =>
      intro l hl
      cases l with
      | nil => simp [collapseWS, collapseRuns]
      | cons c rest =>
        by_cases hc : isPySpace c = true
        · rw [collapseWS_cons_space rest hc, collapseRuns, if_pos hc]
          have hle : (rest.dropWhile isPySpace).length ≤ n :=
            le_trans (length_dropWhile_le isPySpace rest) (Nat.succ_le_succ_iff.mp hl)
          rw [ih _ hle]
        · rw [collapseWS_cons_text rest (by simpa using hc), collapseRuns, if_neg hc,
            ih rest (Nat.succ_le_succ_iff.mp hl)]
  exact H l.length l le_rfl

theorem pySplit_cons_space {c : Char} (l : List Char) (h : isPySpace c = true) :
    pySplit (c :: l) = pySplit l := by
  cases l with
  | nil => simp [pySplit, h]
  | cons b rest => simp [pySplit, h]

theorem pySplit_cons_text {c : Char} (l : List Char) (h : isPySpace c = false) :
    pySplit (c :: l) =
      (c :: l.takeWhile isText) :: pySplit (l.dropWhile isText) := by
  induction l generalizing c with
  | nil => simp [pySplit, h]
  | cons b rest ih =>
    by_cases hb : isPySpace b = true
    · have h1 : pySplit (c :: b :: rest) = [c] :: pySplit (b :: rest) := by
        simp [pySplit, h, hb]
      rw [h1, List.takeWhile_cons_of_neg (p := isText) (by simp [isText, hb]),
        List.dropWhile_cons_of_neg (p := isText) (by simp [isText, hb])]
    · have h1 : pySplit (c :: b :: rest) =
          match pySplit (b :: rest) with
          | [] => [[c]]
          | w :: ws => (c :: w) :: ws := by
        simp [pySplit, h, hb]
      rw [h1, ih (by simpa using hb), List.takeWhile_cons_of_pos (p := isText) (by simp [isText, hb]),
        List.dropWhile_cons_of_pos (p := isText) (by simp [isText, hb])]

theorem pySplit_dropWhile_space (l : List Char) :
    pySplit (l.dropWhile isPySpace) = pySplit l := by
  induction l with
  | nil => simp
  | cons b rest ih =>
    by_cases hb : isPySpace b = true
    · rw [List.dropWhile_cons_of_pos hb, ih, pySplit_cons_space rest hb]
    · rw [List.dropWhile_cons_of_neg hb]

theorem takeWhile_isText_collapseWS (l : List Char) :
    (collapseWS l).takeWhile isText = l.takeWhile isText := by
  induction l with
  | nil => simp [collapseWS]
  | cons c rest ih =>
    by_cases hc : isPySpace c = true
    · rw [collapseWS_cons_space _ hc, List.takeWhile_cons_of_neg (by decide),
        List.takeWhile_cons_of_neg (show ¬isText c = true by simp [isText, hc])]
    · have hc' : isPySpace c = false := by simpa using hc
      rw [collapseWS_cons_text _ hc',
        List.takeWhile_cons_of_pos (show isText c = true by simp [isText, hc']),
        List.takeWhile_cons_of_pos (show isText c = true by simp [isText, hc']), ih]

theorem dropWhile_isText_collapseWS (l : List Char) :
    (collapseWS l).dropWhile isText = collapseWS (l.dropWhile isText) := by
  induction l with
  | nil => simp [collapseWS]
  | cons c rest ih =>
    by_cases hc : isPySpace c = true
    · rw [List.dropWhile_cons_of_neg (show ¬isText c = true by simp [isText, hc]),
        collapseWS_cons_space _ hc, List.dropWhile_cons_of_neg (by decide),
        ← collapseWS_cons_space _ hc]
    · have hc' : isPySpace c = false := by simpa using hc
      rw [collapseWS_cons_text _ hc',
        List.dropWhile_cons_of_pos (show isText c = true by simp [isText, hc']),
        List.dropWhile_cons_of_pos (show isText c = true by simp [isText, hc']), ih]

/-- Collapsing whitespace does not change the word list. -/
theorem pySplit_collapseWS (l : List Char) : pySplit (collapseWS l) = pySplit l := by
  have H : ∀ (n : Nat) (l : List Char), l.length ≤ n → pySplit (collapseWS l) = pySplit l := by
    intro n
    induction n with
    | zero =>
      intro l hl
      rw [List.eq_nil_of_length_eq_zero (Nat.le_zero.mp hl)]
      simp [collapseWS]
    | succ n ih =>
      intro l hl
      cases l with
      | nil => simp [collapseWS]
      | cons c rest =>
        by_cases hc : isPySpace c = true
        · rw [collapseWS_cons_space _ hc, pySplit_cons_space _ (by decide),
            ih _ (le_trans (length_dropWhile_le isPySpace rest) (Nat.succ_le_succ_iff.mp hl)),
            pySplit_dropWhile_space, pySplit_cons_space _ hc]
        · have hc' : isPySpace c = false := by simpa using hc
          rw [collapseWS_cons_text _ hc', pySplit_cons_text _ hc', pySplit_cons_text _ hc',
            takeWhile_isText_collapseWS, dropWhile_isText_collapseWS,
            ih _ (le_trans (length_dropWhile_le _ rest) (Nat.succ_le_succ_iff.mp hl))]
  exact H l.length l le_rfl

/-- Every word produced by the splitter is nonempty and free of
whitespace characters. -/
theorem pySplit_sound (l : List Char) :
    ∀ w ∈ pySplit l, w ≠ [] ∧ ∀ c ∈ w, isPySpace c = false := by
  have H : ∀ (n : Nat) (l : List Char), l.length ≤ n →
      ∀ w ∈ pySplit l, w ≠ [] ∧ ∀ c ∈ w, isPySpace c = false := by
    intro n
    induction n with
    | zero =>
      intro l hl
      rw [List.eq_nil_of_length_eq_zero (Nat.le_zero.mp hl)]
      simp [pySplit]
    | succ n ih =>
      intro l hl
      cases l with
      | nil => simp [pySplit]
      | cons c rest =>
        by_cases hc : isPySpace c = true
        · rw [pySplit_cons_space _ hc]
          exact ih rest (Nat.succ_le_succ_iff.mp hl)
        · have hc' : isPySpace c = false := by simpa using hc
          rw [pySplit_cons_text _ hc']
          intro w hw
          rcases List.mem_cons.mp hw with hw | hw
          · subst hw
            refine ⟨by simp, ?_⟩
            intro x hx
            rcases List.mem_cons.mp hx with hx | hx
            · subst hx; exact hc'
            · have := List.mem_takeWhile_imp hx
              simpa [isText] using this
          · exact ih _ (le_trans (length_dropWhile_le _ rest) (Nat.succ_le_succ_iff.mp hl)) w hw
  exact H l.length l le_rfl

theorem joinWords_eq_intercalate (ws : List (List Char)) :
    joinWords ws = List.intercalate [' '] ws := by
  induction ws with
  | nil => simp [joinWords, List.intercalate]
  | cons w ws ih =>
    cases ws with
    | nil => simp [joinWords, List.intercalate, List.intersperse]
    | cons w2 rest =>
      simp only [joinWords, ih]
      simp [List.intercalate, List.intersperse]

/-- C2: for every input text and target word count, `enforce_count` first
replaces every run of whitespace with a single space; then, if the
resulting word count is at or under the target, it returns the collapsed
text unchanged, and otherwise it returns exactly the first `target` words
joined by single spaces with a literal ellipsis appended. Stated as a
refinement: the source function coincides with the contract transcribed
from the spec. -/
theorem enforce_count_matches_spec (txt : String) (n : Nat) :
    enforce_count txt n = enforce_count_spec txt n := by
  simp only [enforce_count, enforce_count_spec, ← collapseWS_eq_runs, joinWords_eq_intercalate]

/-! ### Words, joining and fixed points of the collapser -/

/-- A well-formed word list: every item nonempty and whitespace-free.
`pySplit` always produces such a list. -/
def GoodWords (ws : List (List Char)) : Prop :=
  ∀ w ∈ ws, w ≠ [] ∧ ∀ c ∈ w, isPySpace c = false

theorem collapseWS_text_append (w rest : List Char)
    (hw : ∀ c ∈ w, isPySpace c = false) :
    collapseWS (w ++ rest) = w ++ collapseWS rest := by
  induction w with
  | nil => simp
  | cons c w ih =>
    rw [List.cons_append, collapseWS_cons_text _ (hw c (by simp)),
      ih (fun c hc => hw c (List.mem_cons_of_mem _ hc))]
    simp

theorem collapseWS_space_cons (X : List Char)
    (hX : X = [] ∨ ∃ d t, X = d :: t ∧ isPySpace d = false) :
    collapseWS (' ' :: X) = ' ' :: collapseWS X := by
  rcases hX with h | ⟨d, t, rfl, hd⟩
  · subst h; simp [collapseWS]
  · rw [collapseWS_cons_space _ (by decide), List.dropWhile_cons_of_neg (by simp [hd])]

/-- Joining well-formed words (with an optional whitespace-free tail
appended) is a fixed point of the whitespace collapser. -/
theorem collapseWS_joinWords_append (ws : List (List Char)) (d : List Char)
    (hws : GoodWords ws) (hd : ∀ c ∈ d, isPySpace c = false) :
    collapseWS (joinWords ws ++ d) = joinWords ws ++ collapseWS d := by
  induction ws with
  | nil => simp [joinWords]
  | cons w ws ih =>
    cases ws with
    | nil =>
      simp only [joinWords]
      exact collapseWS_text_append w d (hws w (by simp)).2
    | cons w2 rest =>
      have hw2 : w2 ≠ [] := (hws w2 (by simp)).1
      simp only [joinWords, List.append_assoc, List.cons_append]
      rw [collapseWS_text_append w _ (hws w (by simp)).2]
      have hhead : ∃ d0 t0, joinWords (w2 :: rest) ++ d = d0 :: t0 ∧ isPySpace d0 = false := by
        cases w2 with
        | nil => exact absurd rfl hw2
        | cons c2 w2' =>
          cases rest with
          | nil =>
            refine ⟨c2, w2' ++ d, by simp [joinWords], ?_⟩
            exact (hws (c2 :: w2') (by simp)).2 c2 (by simp)
          | cons w3 rest' =>
            refine ⟨c2, (w2' ++ ' ' :: joinWords (w3 :: rest')) ++ d, by simp [joinWords], ?_⟩
            exact (hws (c2 :: w2') (by simp)).2 c2 (by simp)
      rw [collapseWS_space_cons _ (Or.inr hhead),
        ih (fun w hw => hws w (List.mem_cons_of_mem _ hw))]

theorem takeWhile_isText_of_text (w : List Char)
    (hw : ∀ c ∈ w, isPySpace c = false) : w.takeWhile isText = w :=
  List.takeWhile_eq_self_iff.mpr (fun c hc => by simp [isText, hw c hc])

theorem dropWhile_isText_of_text (w : List Char)
    (hw : ∀ c ∈ w, isPySpace c = false) : w.dropWhile isText = [] :=
  List.dropWhile_eq_nil_iff.mpr (fun c hc => by simp [isText, hw c hc])

theorem takeWhile_isText_text_append (w rest : List Char)
    (hw : ∀ c ∈ w, isPySpace c = false) :
    (w ++ ' ' :: rest).takeWhile isText = w := by
  induction w with
  | nil =>
    rw [List.nil_append]
    exact List.takeWhile_cons_of_neg (by decide)
  | cons c w ih =>
    rw [List.cons_append, List.takeWhile_cons_of_pos (by simp [isText, hw c (by simp)]),
      ih (fun c hc => hw c (List.mem_cons_of_mem _ hc))]

theorem dropWhile_isText_text_append (w rest : List Char)
    (hw : ∀ c ∈ w, isPySpace c = false) :
    (w ++ ' ' :: rest).dropWhile isText = ' ' :: rest := by
  induction w with
  | nil =>
    rw [List.nil_append]
    exact List.dropWhile_cons_of_neg (by decide)
  | cons c w ih =>
    rw [List.cons_append, List.dropWhile_cons_of_pos (by simp [isText, hw c (by simp)]),
      ih (fun c hc => hw c (List.mem_cons_of_mem _ hc))]

/-- The splitter recovers a single well-formed word. -/
theorem pySplit_word (w : List Char) (hne : w ≠ [])
    (hw : ∀ c ∈ w, isPySpace c = false) : pySplit w = [w] := by
  cases w with
  | nil => exact absurd rfl hne
  | cons c w' =>
    rw [pySplit_cons_text _ (hw c (by simp)),
      takeWhile_isText_of_text w' (fun c hc => hw c (List.mem_cons_of_mem _ hc)),
      dropWhile_isText_of_text w' (fun c hc => hw c (List.mem_cons_of_mem _ hc))]
    simp [pySplit]

theorem pySplit_word_append_space (w rest : List Char) (hne : w ≠ [])
    (hw : ∀ c ∈ w, isPySpace c = false) :
    pySplit (w ++ ' ' :: rest) = w :: pySplit rest := by
  cases w with
  | nil => exact absurd rfl hne
  | cons c w' =>
    have hw' : ∀ x ∈ w', isPySpace x = false := fun x hx => hw x (List.mem_cons_of_mem _ hx)
    rw [List.cons_append, pySplit_cons_text _ (hw c (by simp)),
      takeWhile_isText_text_append w' rest hw', dropWhile_isText_text_append w' rest hw',
      pySplit_cons_space _ (by decide)]

/-- The splitter is a left inverse of joining on well-formed word lists. -/
theorem pySplit_joinWords (ws : List (List Char)) (h : GoodWords ws) :
    pySplit (joinWords ws) = ws := by
  induction ws with
  | nil => simp [joinWords, pySplit]
  | cons w ws ih =>
    cases ws with
    | nil =>
      simp only [joinWords]
      exact pySplit_word w (h w (by simp)).1 (h w (by simp)).2
    | cons w2 rest =>
      simp only [joinWords]
      rw [pySplit_word_append_space _ _ (h w (by simp)).1 (h w (by simp)).2,
        ih (fun w hw => h w (List.mem_cons_of_mem _ hw))]

/-- Appending a whitespace-free nonempty tail to joined words merges the
tail into the last word but keeps the word count. -/
theorem length_pySplit_joinWords_append (ws : List (List Char)) (d : List Char)
    (h : GoodWords ws) (hws : ws ≠ [])
    (hd : ∀ c ∈ d, isPySpace c = false) :
    (pySplit (joinWords ws ++ d)).length = ws.length := by
  induction ws with
  | nil => exact absurd rfl hws
  | cons w ws ih =>
    cases ws with
    | nil =>
      simp only [joinWords]
      rw [pySplit_word (w ++ d) (by simp [(h w (by simp)).1]) ?hwd]
      · simp
      case hwd =>
        intro c hc
        rcases List.mem_append.mp hc with hc | hc
        · exact (h w (by simp)).2 c hc
        · exact hd c hc
    | cons w2 rest =>
      simp only [joinWords, List.append_assoc, List.cons_append]
      rw [pySplit_word_append_space _ _ (h w (by simp)).1 (h w (by simp)).2]
      simp only [List.length_cons]
      rw [ih (fun x hx => h x (List.mem_cons_of_mem _ hx)) (by simp)]
      simp

theorem dropWhile_space_head (l : List Char) :
    l.dropWhile isPySpace = [] ∨
      ∃ d t, l.dropWhile isPySpace = d :: t ∧ isPySpace d = false := by
  induction l with
  | nil => exact Or.inl rfl
  | cons c rest ih =>
    by_cases hc : isPySpace c = true
    · rw [List.dropWhile_cons_of_pos hc]; exact ih
    · rw [List.dropWhile_cons_of_neg hc]
      exact Or.inr ⟨c, rest, rfl, by simpa using hc⟩

/-- Collapsing whitespace is idempotent. -/
theorem collapseWS_idem (l : List Char) : collapseWS (collapseWS l) = collapseWS l := by
  have H : ∀ (n : Nat) (l : List Char), l.length ≤ n →
      collapseWS (collapseWS l) = collapseWS l := by
    intro n
    induction n with
    | zero =>
      intro l hl
      rw [List.eq_nil_of_length_eq_zero (Nat.le_zero.mp hl)]
      simp [collapseWS]
    | succ n ih =>
      intro l hl
      cases l with
      | nil => simp [collapseWS]
      | cons c rest =>
        by_cases hc : isPySpace c = true
        · rw [collapseWS_cons_space _ hc]
          rcases dropWhile_space_head rest with hnil | ⟨d, t, heq, hd⟩
          · rw [hnil]; simp [collapseWS]
          · rw [heq, collapseWS_cons_text _ hd,
              collapseWS_space_cons _ (Or.inr ⟨d, collapseWS t, rfl, hd⟩),
              collapseWS_cons_text _ hd]
            have hlen := length_dropWhile_le isPySpace rest
            rw [heq] at hlen
            simp only [List.length_cons] at hlen hl
            rw [ih t (by omega)]
        · have hc' : isPySpace c = false := by simpa using hc
          rw [collapseWS_cons_text _ hc', collapseWS_cons_text _ hc',
            ih rest (Nat.succ_le_succ_iff.mp hl)]
  exact H l.length l le_rfl

/-- The character list of the normalizer's output: the collapsed text, or
the first `n` words joined with single spaces and a literal ellipsis. -/
theorem enforce_count_toList (txt : String) (n : Nat) :
    (enforce_count txt n).toList =
      if (pySplit txt.toList).length ≤ n then collapseWS txt.toList
      else joinWords ((pySplit txt.toList).take n) ++ ['.', '.', '.'] := by
  simp only [enforce_count]
  rw [pySplit_collapseWS]
  split
  · rfl
  · show (String.mk _ ++ "...").data = _
    rw [String.data_append]

/-- C3 fails as stated: at word budget 0, the input whose collapsed form
is the single word consisting of three dots exceeds the budget, is
truncated to zero words, and gains the appended ellipsis — so the result
is one word, not at most zero. The stated conjunction (at most `n` words,
and trailing ellipsis iff the original count exceeded `n`) is false at
this input. -/
theorem enforce_count_word_budget_cex :
    ¬ ((pySplit (enforce_count "..." 0).toList).length ≤ 0 ∧
        (['.', '.', '.'] <:+ (enforce_count "..." 0).toList ↔
          0 < (pySplit ("..." : String).toList).length)) := by
  decide

/-- C3 (amended): for all word counts and texts, the normalized result has
at most `max n 1` words (for a positive budget, at most `n`; at budget 0 a
truncated text still keeps the lone ellipsis word), and the result ends
with an ellipsis iff the original word count exceeded the budget or the
collapsed text itself already ended with the three dots. -/
theorem enforce_count_word_budget (txt : String) (n : Nat) :
    (pySplit (enforce_count txt n).toList).length ≤ max n 1 ∧
      (['.', '.', '.'] <:+ (enforce_count txt n).toList ↔
        n < (pySplit txt.toList).length ∨ ['.', '.', '.'] <:+ collapseWS txt.toList) := by
  rw [enforce_count_toList]
  by_cases hle : (pySplit txt.toList).length ≤ n
  · rw [if_pos hle, pySplit_collapseWS]
    refine ⟨le_trans hle (le_max_left n 1), ?_⟩
    constructor
    · intro h; exact Or.inr h
    · rintro (h | h)
      · omega
      · exact h
  · rw [if_neg hle]
    constructor
    · cases n with
      | zero =>
        simp only [List.take_zero, joinWords, List.nil_append]
        decide
      | succ m =>
        have hgood : GoodWords ((pySplit txt.toList).take (m + 1)) :=
          fun w hw => pySplit_sound txt.toList w (List.take_subset _ _ hw)
        have hne : (pySplit txt.toList).take (m + 1) ≠ [] := by
          apply List.ne_nil_of_length_pos
          rw [List.length_take]
          omega
        rw [length_pySplit_joinWords_append _ _ hgood hne (by decide), List.length_take]
        omega
    · refine iff_of_true (List.suffix_append _ _) (Or.inl (by omega))

/-- C8 fails as stated: the text made of the letter a, two spaces and the
letter b has 2 words, at or under the target 5, yet the normalizer
returns it with the double space collapsed, not identically. -/
theorem enforce_count_idem_cex :
    (pySplit ("a  b" : String).toList).length ≤ 5 ∧
      enforce_count "a  b" 5 ≠ "a  b" := by
  decide

/-- C8 (amended): on whitespace-collapsed input (in particular on any
output of the normalizer) whose word count is at or under the target, the
normalizer is the identity; consequently normalizing twice with the same
target always equals normalizing once. -/
theorem enforce_count_idem (txt : String) (n : Nat) :
    (collapseWS txt.toList = txt.toList → (pySplit txt.toList).length ≤ n →
        enforce_count txt n = txt) ∧
      enforce_count (enforce_count txt n) n = enforce_count txt n := by
  constructor
  · intro hfix hle
    apply String.ext
    show (enforce_count txt n).toList = txt.toList
    rw [enforce_count_toList, if_pos hle, hfix]
  · apply String.ext
    show (enforce_count (enforce_count txt n) n).toList = (enforce_count txt n).toList
    rw [enforce_count_toList (enforce_count txt n) n]
    by_cases hle : (pySplit txt.toList).length ≤ n
    · have hr : (enforce_count txt n).toList = collapseWS txt.toList := by
        rw [enforce_count_toList, if_pos hle]
      rw [hr, pySplit_collapseWS, if_pos hle, collapseWS_idem]
    · have hr : (enforce_count txt n).toList =
          joinWords ((pySplit txt.toList).take n) ++ ['.', '.', '.'] := by
        rw [enforce_count_toList, if_neg hle]
      cases n with
      | zero =>
        rw [hr]
        simp only [List.take_zero, joinWords, List.nil_append]
        decide
      | succ m =>
        have hgood : GoodWords ((pySplit txt.toList).take (m + 1)) :=
          fun w hw => pySplit_sound txt.toList w (List.take_subset _ _ hw)
        have hne : (pySplit txt.toList).take (m + 1) ≠ [] := by
          apply List.ne_nil_of_length_pos
          rw [List.length_take]
          omega
        have hlen : (pySplit (joinWords ((pySplit txt.toList).take (m + 1)) ++
            ['.', '.', '.'])).length = m + 1 := by
          rw [length_pySplit_joinWords_append _ _ hgood hne (by decide), List.length_take]
          omega
        have hcol : collapseWS (joinWords ((pySplit txt.toList).take (m + 1)) ++
            ['.', '.', '.']) =
            joinWords ((pySplit txt.toList).take (m + 1)) ++ ['.', '.', '.'] := by
          rw [collapseWS_joinWords_append _ _ hgood (by decide),
            show collapseWS ['.', '.', '.'] = ['.', '.', '.'] from by decide]
        rw [hr, if_pos (le_of_eq hlen), hcol]

/-- Witness for the amended idempotence claim at concrete inputs. -/
theorem enforce_count_idem_witness :
    enforce_count "a b" 5 = "a b" ∧
      enforce_count (enforce_count "x  y z" 2) 2 = enforce_count "x  y z" 2 :=
  ⟨(enforce_count_idem "a b" 5).1 (by decide) (by decide),
   (enforce_count_idem "x  y z" 2).2⟩

/-! ### Lines, numbering and the applications list -/

theorem splitOnNl_no_nl (w : List Char) (h : ('\n' : Char) ∉ w) : splitOnNl w = [w] := by
  induction w with
  | nil => rfl
  | cons c rest ih =>
    have hc : ¬(c = '\n') := by
      intro hceq
      subst hceq
      exact h (List.mem_cons_self _ _)
    have hrest : ('\n' : Char) ∉ rest := fun hr => h (List.mem_cons_of_mem _ hr)
    rw [show splitOnNl (c :: rest) =
        (match splitOnNl rest with
          | [] => [[c]]
          | w :: ws => (c :: w) :: ws) from by simp [splitOnNl, hc],
      ih hrest]

theorem splitOnNl_append_nl (w t : List Char) (h : ('\n' : Char) ∉ w) :
    splitOnNl (w ++ '\n' :: t) = w :: splitOnNl t := by
  induction w with
  | nil => simp [splitOnNl]
  | cons c rest ih =>
    have hc : ¬(c = '\n') := by
      intro hceq
      subst hceq
      exact h (List.mem_cons_self _ _)
    have hrest : ('\n' : Char) ∉ rest := fun hr => h (List.mem_cons_of_mem _ hr)
    rw [List.cons_append, show splitOnNl (c :: (rest ++ '\n' :: t)) =
        (match splitOnNl (rest ++ '\n' :: t) with
          | [] => [[c]]
          | w :: ws => (c :: w) :: ws) from by simp [splitOnNl, hc],
      ih hrest]

/-- Joining newline-free lines and splitting on newlines recovers exactly
those lines. -/
theorem splitOnNl_joinLines (ls : List (List Char)) (hne : ls ≠ [])
    (h : ∀ l ∈ ls, ('\n' : Char) ∉ l) : splitOnNl (joinLines ls) = ls := by
  induction ls with
  | nil => exact absurd rfl hne
  | cons l ls ih =>
    cases ls with
    | nil =>
      simp only [joinLines]
      exact splitOnNl_no_nl l (h l (by simp))
    | cons l2 rest =>
      simp only [joinLines]
      rw [splitOnNl_append_nl _ _ (h l (by simp)),
        ih (by simp) (fun x hx => h x (List.mem_cons_of_mem _ hx))]

theorem splitOnNl_mem_no_nl (l : List Char) :
    ∀ w ∈ splitOnNl l, ('\n' : Char) ∉ w := by
  induction l with
  | nil =>
    intro w hw
    simp only [splitOnNl, List.mem_singleton] at hw
    simp [hw]
  | cons c rest ih =>
    by_cases hc : c = '\n'
    · subst hc
      rw [show splitOnNl ('\n' :: rest) = [] :: splitOnNl rest from by simp [splitOnNl]]
      intro w hw
      rcases List.mem_cons.mp hw with rfl | hw
      · simp
      · exact ih w hw
    · rw [show splitOnNl (c :: rest) =
          (match splitOnNl rest with
            | [] => [[c]]
            | w :: ws => (c :: w) :: ws) from by simp [splitOnNl, hc]]
      rcases hsp : splitOnNl rest with _ | ⟨w0, ws⟩
      · intro w hw
        simp only [List.mem_singleton] at hw
        subst hw
        intro hmem
        simp only [List.mem_singleton] at hmem
        exact hc hmem.symm
      · intro w hw
        rcases List.mem_cons.mp hw with rfl | hw
        · intro hmem
          rcases List.mem_cons.mp hmem with hmem | hmem
          · exact hc hmem.symm
          · exact ih w0 (hsp ▸ List.mem_cons_self _ _) hmem
        · exact ih w (hsp ▸ List.mem_cons_of_mem _ hw)

theorem mem_of_mem_dropWhile {c : Char} (p : Char → Bool) (l : List Char)
    (h : c ∈ l.dropWhile p) : c ∈ l := by
  induction l with
  | nil => simpa using h
  | cons a rest ih =>
    by_cases ha : p a = true
    · rw [List.dropWhile_cons_of_pos ha] at h
      exact List.mem_cons_of_mem _ (ih h)
    · rwa [List.dropWhile_cons_of_neg ha] at h

theorem mem_of_mem_pyStrip {c : Char} (l : List Char) (h : c ∈ pyStrip l) : c ∈ l := by
  unfold pyStrip at h
  have h1 := mem_of_mem_dropWhile _ _ (List.mem_reverse.mp h)
  exact mem_of_mem_dropWhile _ _ (List.mem_reverse.mp h1)

/-- Every processed applications line is newline-free (each comes from a
piece of the newline split). -/
theorem appLines_no_nl (raw : String) : ∀ w ∈ appLines raw, ('\n' : Char) ∉ w := by
  intro w hw
  simp only [appLines, List.mem_map] at hw
  obtain ⟨l, hl, rfl⟩ := hw
  intro hmem
  exact splitOnNl_mem_no_nl raw.toList l (List.mem_of_mem_filter hl)
    (mem_of_mem_dropWhile _ _ (mem_of_mem_pyStrip _ hmem))

theorem fillerLine_no_nl (topic : String) (h : ('\n' : Char) ∉ topic.toList) :
    ('\n' : Char) ∉ fillerLine topic := by
  intro hmem
  simp only [fillerLine, List.mem_append, List.mem_singleton] at hmem
  rcases hmem with (h1 | h2) | h3
  · exact absurd h1 (by decide)
  · exact h h2
  · exact absurd h3 (by decide)

theorem decDigit_ne_nl (d : Nat) : decDigit d ≠ '\n' := by
  unfold decDigit
  repeat' split
  all_goals decide

theorem natDecCore_no_nl (fuel : Nat) : ∀ (n : Nat) (acc : List Char),
    ('\n' : Char) ∉ acc → ('\n' : Char) ∉ natDecCore fuel n acc := by
  induction fuel with
  | zero =>
    intro n acc hacc
    simpa [natDecCore] using hacc
  | succ fuel ih =>
    intro n acc hacc
    simp only [natDecCore]
    split
    · intro hmem
      rcases List.mem_cons.mp hmem with h | h
      · exact decDigit_ne_nl n h.symm
      · exact hacc h
    · refine ih _ _ ?_
      intro hmem
      rcases List.mem_cons.mp hmem with h | h
      · exact decDigit_ne_nl _ h.symm
      · exact hacc h

theorem natDec_no_nl (n : Nat) : ('\n' : Char) ∉ natDec n :=
  natDecCore_no_nl _ _ _ (by simp)

theorem numberFrom_length (i : Nat) (ls : List (List Char)) :
    (numberFrom i ls).length = ls.length := by
  induction ls generalizing i with
  | nil => rfl
  | cons l ls ih => simp [numberFrom, ih]

theorem numberFrom_getD (i : Nat) (ls : List (List Char)) (k : Nat) (hk : k < ls.length) :
    (numberFrom i ls).getD k [] = natDec (i + k) ++ '.' :: ' ' :: ls.getD k [] := by
  induction ls generalizing i k with
  | nil => exact absurd hk (by simp)
  | cons l ls ih =>
    cases k with
    | zero => simp [numberFrom]
    | succ k =>
      have hk' : k < ls.length := by simpa using hk
      show (numberFrom (i + 1) ls).getD k [] = _
      rw [ih (i + 1) k hk']
      have harith : i + 1 + k = i + (k + 1) := by omega
      rw [harith]
      rfl

theorem numberFrom_no_nl (i : Nat) (ls : List (List Char))
    (h : ∀ l ∈ ls, ('\n' : Char) ∉ l) :
    ∀ w ∈ numberFrom i ls, ('\n' : Char) ∉ w := by
  induction ls generalizing i with
  | nil => simp [numberFrom]
  | cons l ls ih =>
    intro w hw
    rcases List.mem_cons.mp hw with rfl | hw
    · intro hmem
      rcases List.mem_append.mp hmem with h1 | h2
      · exact natDec_no_nl i h1
      · rcases List.mem_cons.mp h2 with h3 | h4
        · exact absurd h3 (by decide)
        · rcases List.mem_cons.mp h4 with h5 | h6
          · exact absurd h5 (by decide)
          · exact h l (by simp) h6
    · exact ih (i + 1) (fun x hx => h x (List.mem_cons_of_mem _ hx)) w hw

theorem mem_padTo (n : Nat) (f : List Char) (ls : List (List Char)) (w : List Char)
    (hw : w ∈ padTo n f ls) : w ∈ ls ∨ w = f := by
  unfold padTo at hw
  rcases List.mem_append.mp hw with h | h
  · exact Or.inl h
  · exact Or.inr (List.eq_of_mem_replicate h)

theorem length_take_padTo (n : Nat) (f : List Char) (ls : List (List Char)) :
    ((padTo n f ls).take n).length = n := by
  rw [List.length_take]
  simp only [padTo, List.length_append, List.length_replicate]
  omega

/-- C1: for every desired count of at least 1 and every raw model
response, the applications post-processing returns a string of exactly
`n` newline-separated lines, where line `i` (counting from 1, in order)
begins with the decimal rendering of `i` followed by a dot and a space —
regardless of how many usable lines the response contained, including
zero: missing lines are padded with the filler sentence and excess lines
are truncated. The topic is a single-line form value, so it contains no
newline. -/
theorem generate_apps_numbered_lines (n : Nat) (raw topic : String)
    (hn : 1 ≤ n) (htopic : ('\n' : Char) ∉ topic.toList) :
    (splitOnNl (generate_apps raw topic n).toList).length = n ∧
      ∀ k, k < n →
        natDec (k + 1) ++ ['.', ' '] <+:
          (splitOnNl (generate_apps raw topic n).toList).getD k [] := by
  have hitems_nl : ∀ w ∈ (padTo n (fillerLine topic) (appLines raw)).take n,
      ('\n' : Char) ∉ w := by
    intro w hw
    rcases mem_padTo _ _ _ w (List.take_subset _ _ hw) with h | rfl
    · exact appLines_no_nl raw w h
    · exact fillerLine_no_nl topic htopic
  have hlen : ((padTo n (fillerLine topic) (appLines raw)).take n).length = n :=
    length_take_padTo n _ _
  have hnum_nl : ∀ w ∈ numberFrom 1 ((padTo n (fillerLine topic) (appLines raw)).take n),
      ('\n' : Char) ∉ w := numberFrom_no_nl 1 _ hitems_nl
  have hnum_len : (numberFrom 1 ((padTo n (fillerLine topic) (appLines raw)).take n)).length = n := by
    rw [numberFrom_length, hlen]
  have hnum_ne : numberFrom 1 ((padTo n (fillerLine topic) (appLines raw)).take n) ≠ [] := by
    apply List.ne_nil_of_length_pos
    omega
  have hsplit : splitOnNl (generate_apps raw topic n).toList =
      numberFrom 1 ((padTo n (fillerLine topic) (appLines raw)).take n) := by
    show splitOnNl (joinLines _) = _
    exact splitOnNl_joinLines _ hnum_ne hnum_nl
  constructor
  · rw [hsplit, hnum_len]
  · intro k hk
    have hk3 : k < ((padTo n (fillerLine topic) (appLines raw)).take n).length := by
      rw [hlen]; exact hk
    rw [hsplit, numberFrom_getD 1 _ k hk3]
    refine ⟨((padTo n (fillerLine topic) (appLines raw)).take n).getD k [], ?_⟩
    have harith : 1 + k = k + 1 := by omega
    rw [harith]
    simp

/-- Witness for the numbered-lines claim: two raw lines, count 2. -/
theorem generate_apps_numbered_lines_witness :
    (1 ≤ 2 ∧ ('\n' : Char) ∉ ("math" : String).toList) ∧
      (splitOnNl (generate_apps "alpha\nbeta\ngamma" "math" 2).toList).length = 2 :=
  ⟨⟨by decide, by decide⟩,
    (generate_apps_numbered_lines 2 "alpha\nbeta\ngamma" "math" (by decide) (by decide)).1⟩

/-- C10: the empty-line filter runs on the raw line, before enumeration
stripping — a line made only of asterisks passes the filter and is then
stripped to empty text, so the output keeps a numbered item with nothing
after the number. Concretely, for the raw response of a line of three
asterisks followed by a line reading use maps, the output's first line is
the digit 1, a dot and a trailing space with empty item text, while the
real line becomes item 2. -/
theorem generate_apps_keeps_empty_item :
    generate_apps "***\nuse maps" "math" 2 = "1. \n2. use maps" := by
  decide

/-! ### Pipeline control flow, model selection, filling and conversion -/

/-- C5: if the topic field is the empty string, the Generate pipeline
aborts fatally with the empty-topic error before any model call is made
(zero API requests) and produces no output document. -/
theorem pipeline_empty_topic (env : Env) (form : Form) (h : form.topic = "") :
    pipeline env form = (Except.error Abort.emptyTopic, 0) := by
  simp [pipeline, h]

/-- Witness for the empty-topic abort at a concrete environment. -/
theorem pipeline_empty_topic_witness :
    pipeline ⟨some "key", fun _ => true, fun _ => "sample", some ⟨[], []⟩⟩
      ⟨"a", "s", "r", "c", "l", "y", "t", "", "subj"⟩ =
      (Except.error Abort.emptyTopic, 0) :=
  pipeline_empty_topic _ _ rfl

/-- An environment whose template file is absent but everything else is
in order: credential set, first candidate model responding, generation
requests answered. -/
def c4env : Env := ⟨some "key", fun _ => true, fun _ => "sample response", none⟩

/-- A filled form with a nonempty topic. -/
def c4form : Form := ⟨"a", "s", "r", "c", "l", "y", "t", "recursion", "subj"⟩

/-- C4 fails as stated: with the template file absent but a valid topic,
credential and model, the pipeline still issues model calls (one probe
plus five generation requests, six in total) before aborting at the
template-filling step — not zero calls as the claim requires. -/
theorem pipeline_template_missing_cex :
    c4env.templateFile = none ∧
      (pipeline c4env c4form).1 = Except.error Abort.templateMissing ∧
      (pipeline c4env c4form).2 ≠ 0 := by
  refine ⟨rfl, rfl, ?_⟩
  decide

/-- C4 (amended): if the template file does not exist, the Generate
pipeline always fails and produces no output document, but the abort
happens at the template-filling step, after the model calls: whenever the
topic is nonempty and model selection succeeds, the probe requests and
all five generation requests are issued before the abort. -/
theorem pipeline_template_missing (env : Env) (form : Form)
    (h : env.templateFile = none) :
    (∃ e, (pipeline env form).1 = Except.error e) ∧
      (∀ m, form.topic ≠ "" → init_genai env.apiKey env.probeOk = Except.ok m →
        pipeline env form =
          (Except.error Abort.templateMissing,
            probeCalls PREFERRED_MODELS env.probeOk + 5) ∧
          0 < (pipeline env form).2) := by
  constructor
  · by_cases ht : form.topic = ""
    · exact ⟨Abort.emptyTopic, by simp [pipeline, ht]⟩
    · rcases hinit : init_genai env.apiKey env.probeOk with e | m
      · exact ⟨e, by simp [pipeline, ht, hinit]⟩
      · exact ⟨Abort.templateMissing, by simp [pipeline, ht, hinit, fill_template, h]⟩
  · intro m ht hm
    have hp : pipeline env form =
        (Except.error Abort.templateMissing,
          probeCalls PREFERRED_MODELS env.probeOk + 5) := by
      simp [pipeline, ht, hm, fill_template, h]
    refine ⟨hp, ?_⟩
    rw [hp]
    simp

/-- Witness for the amended template-missing claim at a concrete
environment: exactly six model calls are made before the abort. -/
theorem pipeline_template_missing_witness :
    (∃ e, (pipeline c4env c4form).1 = Except.error e) ∧
      pipeline c4env c4form = (Except.error Abort.templateMissing, 6) := by
  refine ⟨(pipeline_template_missing c4env c4form rfl).1, ?_⟩
  have h := ((pipeline_template_missing c4env c4form rfl).2
    "gemini-2.0-flash" (by decide) rfl).1
  rw [h]
  rfl

theorem firstWorking_ok (l : List String) (probe : String → Bool) (m : String) :
    firstWorking l probe = Except.ok m ↔ l.find? probe = some m := by
  induction l with
  | nil => simp [firstWorking]
  | cons a rest ih =>
    by_cases ha : probe a = true
    · rw [List.find?_cons_of_pos _ ha]
      simp [firstWorking, ha]
    · rw [List.find?_cons_of_neg _ (by simpa using ha)]
      simp [firstWorking, ha, ih]

theorem firstWorking_error (l : List String) (probe : String → Bool) :
    (∃ e, firstWorking l probe = Except.error e) ↔ ∀ m ∈ l, probe m = false := by
  induction l with
  | nil => simp [firstWorking]
  | cons a rest ih =>
    by_cases ha : probe a = true
    · simp [firstWorking, ha, List.forall_mem_cons]
    · have ha' : probe a = false := by simpa using ha
      simp [firstWorking, ha', ih, List.forall_mem_cons]

/-- C6 fails as stated: with the credential variable present but equal to
the empty string, the Python truthiness guard aborts the run even though
the credential is not absent from the environment and a candidate model's
test request succeeds. -/
theorem init_genai_empty_key_cex :
    init_genai (some "") (fun _ => true) = Except.error Abort.noApiKey ∧
      (some "" : Option String) ≠ none ∧
      (fun _ : String => true) "gemini-2.0-flash" = true :=
  ⟨rfl, by simp, rfl⟩

/-- C6 (amended): the model selector returns the first candidate model
whose minimal test request succeeds, and it fails fatally exactly when
the credential is absent or empty, or every candidate's test request
fails. -/
theorem init_genai_characterization (key : Option String) (probe : String → Bool) :
    (∀ m, init_genai key probe = Except.ok m ↔
        ((∃ k, key = some k ∧ k ≠ "") ∧ PREFERRED_MODELS.find? probe = some m)) ∧
      ((∃ e, init_genai key probe = Except.error e) ↔
        (key = none ∨ key = some "" ∨ ∀ m ∈ PREFERRED_MODELS, probe m = false)) := by
  match key with
  | none =>
    constructor
    · intro m
      simp [init_genai]
    · simp [init_genai]
  | some k =>
    by_cases hk : k = ""
    · subst hk
      constructor
      · intro m
        simp [init_genai]
      · simp [init_genai]
    · constructor
      · intro m
        rw [show init_genai (some k) probe = firstWorking PREFERRED_MODELS probe from by
          simp [init_genai, hk]]
        rw [firstWorking_ok]
        simp [hk]
      · rw [show init_genai (some k) probe = firstWorking PREFERRED_MODELS probe from by
          simp [init_genai, hk]]
        rw [firstWorking_error]
        simp [hk]

theorem le_foldr_max (fs : List (Nat × String)) :
    ∀ e ∈ fs, e.1 ≤ (fs.map Prod.fst).foldr max 0 := by
  induction fs with
  | nil => simp
  | cons a rest ih =>
    intro e he
    rcases List.mem_cons.mp he with rfl | he
    · exact le_max_left _ _
    · exact le_trans (ih e he) (le_max_right _ _)

/-- C9: the PDF conversion creates a temporary directory scoped to the
call and removes it together with its contents on every exit path: the
filesystem after the call equals the filesystem before it, both when the
external conversion succeeds and when it raises. -/
theorem convert_to_pdf_cleanup (conv : List Nat → Option (List Nat))
    (docxBytes : List Nat) (fs : List (Nat × String)) :
    (convert_to_pdf conv docxBytes fs).2 = fs ∧
      (conv docxBytes = none →
        convert_to_pdf conv docxBytes fs = (Except.error Abort.convFailed, fs)) ∧
      (∀ pdf, conv docxBytes = some pdf →
        convert_to_pdf conv docxBytes fs = (Except.ok pdf, fs)) := by
  have hfresh : ∀ e ∈ fs, e.1 ≠ freshDir fs := by
    intro e he heq
    have hle := le_foldr_max fs e he
    rw [heq] at hle
    simp only [freshDir] at hle
    omega
  have hfs : fs.filter (fun e => e.1 ≠ freshDir fs) = fs :=
    List.filter_eq_self.mpr (fun e he => decide_eq_true (hfresh e he))
  have hmain : convert_to_pdf conv docxBytes fs =
      ((match conv docxBytes with
        | some pdf => Except.ok pdf
        | none => Except.error Abort.convFailed), fs) := by
    simp only [convert_to_pdf]
    rcases conv docxBytes with _ | pdf <;> simp [List.filter_cons, hfs] <;>
      exact fun a b hab => hfresh (a, b) hab
  refine ⟨?_, ?_, ?_⟩
  · rw [hmain]
  · intro hnone
    rw [hmain, hnone]
  · intro pdf hpdf
    rw [hmain, hpdf]

/-- Witness for the converter cleanup on both exit paths at a concrete
filesystem. -/
theorem convert_to_pdf_cleanup_witness :
    (convert_to_pdf (fun _ => none) [7] [(0, "a")]).2 = [(0, "a")] ∧
      convert_to_pdf (fun _ => some [9]) [7] [(0, "a")] = (Except.ok [9], [(0, "a")]) :=
  ⟨(convert_to_pdf_cleanup (fun _ => none) [7] [(0, "a")]).1,
   (convert_to_pdf_cleanup (fun _ => some [9]) [7] [(0, "a")]).2.2 [9] rfl⟩

end RJ
